import Mathlib

/-!
# The fix-version form (`src/tui/lib.go`)

A shallow embedding of package `tui`: the five-field form (`Model`, `InitialModel`,
`Update`, `updateInputs`, `mapTuiInputsToGitConfig`) and the scan for the fix version
(`findFixVersion`), followed by the properties proved about them.

Conventions of the embedding

* Go `string` is `String`; all texts are taken to be valid UTF-8, so that the conversion
  to runes made by the text input does not alter them.
* Go `int` is `Int` (`focusIndex` is decremented below zero before it wraps).
* Package `git` is not part of the file: its four functions used here are the fields of
  `GitPackage`, arbitrary functions of their arguments.  `IsCommitPresentOnBranch` is a
  function, i.e. a deterministic query on a fixed repository.
* The versions handed over by package `git` are Go strings; where a statement is about
  versions it assumes `isVersionText`, the one property of versions used: a version,
  parsed from the name of a git branch, holds no space.
* The text input widget and the `strings` functions come from libraries; the few
  operations used are modelled below (`textinput`, `strings`).
* `findFixVersion` is instrumented: besides the message it returns, it reports the
  accumulator `fixedVersions` at the end of the loop and the list of versions for which
  `IsCommitPresentOnBranch` was called, in call order.
* The spinner and the lipgloss rendering carry no logic and are left out; the styles that
  `Update` assigns are kept as an enumeration.
-/

namespace strings

/-- Go `strings.Join(elems, sep)`: the empty string for no element, the only element for
one, otherwise the first element followed by `sep` and the next element for each of the
remaining ones. -/
def Join (elems : List String) (sep : String) : String :=
  match elems with
  | [] => ""
  | first :: rest => rest.foldl (fun b s => b ++ sep ++ s) first

/-- Cutting a rune list at every occurrence of the rune `sep`. -/
def splitRunes (sep : Char) : List Char → List (List Char)
  | [] => [[]]
  | c :: cs =>
    if c = sep then [] :: splitRunes sep cs
    else
      match splitRunes sep cs with
      | [] => [[c]]
      | piece :: pieces => (c :: piece) :: pieces

/-- Go `strings.Split(s, sep)` for a separator of one character (the only use in the
source is `strings.Split(value, " ")`): the pieces of `s` between the occurrences of the
separator, `Count(s, sep) + 1` of them, so one empty piece for the empty string. -/
def Split (s : String) (sep : Char) : List String :=
  (splitRunes sep s.data).map String.mk

end strings

namespace textinput

/-- The three styles assigned to a text input by the form. -/
inductive Style
  | noStyle
  | focusedStyle
  | blurredStyle
  deriving DecidableEq

/-- Cursor modes of the text input: `CursorBlink = 0`, `CursorStatic = 1`,
`CursorHide = 2`. -/
def CursorBlink : Nat := 0

/-- The last cursor mode. -/
def CursorHide : Nat := 2

/-- The part of `textinput.Model` that the form reads or writes. -/
structure Model where
  value : String
  CharLimit : Nat
  Placeholder : String
  focus : Bool
  PromptStyle : Style
  TextStyle : Style
  CursorStyle : Style
  cursorMode : Nat
  deriving DecidableEq

/-- Go `textinput.New()`: an empty, unfocused input without character limit. -/
def New : Model :=
  { value := "", CharLimit := 0, Placeholder := "", focus := false,
    PromptStyle := Style.noStyle, TextStyle := Style.noStyle,
    CursorStyle := Style.noStyle, cursorMode := CursorBlink }

/-- Go `(*Model).SetValue`: the value is cut to `CharLimit` runes when a positive limit
is exceeded. -/
def Model.SetValue (t : Model) (s : String) : Model :=
  if t.CharLimit > 0 ∧ s.length > t.CharLimit then
    { t with value := String.mk (s.data.take t.CharLimit) }
  else
    { t with value := s }

/-- Go `Model.Value`. -/
def Model.Value (t : Model) : String := t.value

/-- Go `(*Model).Focus`. -/
def Model.Focus (t : Model) : Model := { t with focus := true }

/-- Go `(*Model).Blur`. -/
def Model.Blur (t : Model) : Model := { t with focus := false }

/-- Go `(*Model).SetCursorMode`. -/
def Model.SetCursorMode (t : Model) (mode : Nat) : Model := { t with cursorMode := mode }

end textinput

namespace git

/-- Go `git.GitConfig`, the configuration shared by the form and the git layer. -/
structure GitConfig where
  CommitHash : String
  URL : String
  RemoteName : String
  DevelopBranchName : String
  ReleaseBranchPrependIdentifiers : List String
  deriving DecidableEq

/-- The functions of package `git` called by `findFixVersion`.  `Releases` is the catalog
type returned by `FormatRemoteBranches` (a Go map from version to branch), `lookup` its
indexing `releases[version]`. -/
structure GitPackage where
  Commit : Type
  Branch : Type
  Releases : Type
  lookup : Releases → String → Branch
  FormatRemoteBranches : GitConfig → Releases
  GetSortedReleases : Releases → List String
  GetRootCommit : GitConfig → Option Commit
  IsCommitPresentOnBranch : GitConfig → Commit → Branch → Bool

end git

namespace tui

open git

/-- Messages received by `Update`: the result of the scan, a key press (identified by
`msg.String()`), or any other message (spinner ticks, blinking, window events). -/
inductive Msg
  | fixVersionMsg (text : String)
  | KeyMsg (key : String)
  | other (tag : Nat)
  deriving DecidableEq

/-- Commands returned by `Update`. `submit` is `tea.Batch(m.spinner.Tick, m.findFixVersion)`,
`batch` any other batch of input commands, `spinner` the command of the spinner. -/
inductive Cmd
  | none
  | Quit
  | submit
  | batch
  | spinner
  deriving DecidableEq

/-- Go `tui.Model` (without the spinner). -/
structure Model where
  isInit : Bool
  focusIndex : Int
  inputs : List textinput.Model
  cursorMode : Nat
  isPending : Bool
  isDone : Bool
  commitHash : String
  fixVersion : String
  deriving DecidableEq

/-- The value of `m.inputs[i].Value()`.  Every model built by `InitialModel` and `Update`
has five inputs, so the index is in range where the source uses it. -/
def Model.inputValue (m : Model) (i : Nat) : String :=
  (m.inputs.getD i textinput.New).Value

/-- The input prepared by the loop of `InitialModel` for index `i`. -/
def initialInput (gc : GitConfig) (i : Nat) : textinput.Model :=
  let t : textinput.Model :=
    { textinput.New with CursorStyle := textinput.Style.focusedStyle, CharLimit := 32 }
  match i with
  | 0 =>
    let t := { t with Placeholder := "Commit Hash" }
    let t := t.Focus
    let t := { t with CharLimit := 40, PromptStyle := textinput.Style.focusedStyle,
                      TextStyle := textinput.Style.focusedStyle }
    t.SetValue gc.CommitHash
  | 1 => ({ t with Placeholder := "Repository URL", CharLimit := 100 }).SetValue gc.URL
  | 2 => ({ t with Placeholder := "Remote Name", CharLimit := 100 }).SetValue gc.RemoteName
  | 3 =>
    ({ t with Placeholder := "Development Branch Name", CharLimit := 20 }).SetValue
      gc.DevelopBranchName
  | 4 =>
    ({ t with Placeholder := "Release Identifiers", CharLimit := 120 }).SetValue
      (strings.Join gc.ReleaseBranchPrependIdentifiers " ")
  | _ => t

/-- Go `InitialModel`. -/
def InitialModel (gc : GitConfig) : Model :=
  { isInit := true
    focusIndex := 0
    inputs := (List.range 5).map (initialInput gc)
    cursorMode := textinput.CursorBlink
    isPending := false
    isDone := false
    commitHash := ""
    fixVersion := "" }

/-- Go `(*Model).updateInputs`: every input handles the message; `inputUpdate` is
`textinput.Model.Update`. -/
def Model.updateInputs (inputUpdate : textinput.Model → Msg → textinput.Model)
    (m : Model) (msg : Msg) : Model :=
  { m with inputs := m.inputs.map (fun t => inputUpdate t msg) }

/-- The focus loop of `Update`: the input at `focusIndex` is focused, the others blurred. -/
def refocus (focusIndex : Int) (inputs : List textinput.Model) : List textinput.Model :=
  inputs.enum.map (fun it =>
    if (it.1 : Int) = focusIndex then
      { it.2.Focus with PromptStyle := textinput.Style.focusedStyle,
                        TextStyle := textinput.Style.focusedStyle }
    else
      { it.2.Blur with PromptStyle := textinput.Style.noStyle,
                       TextStyle := textinput.Style.noStyle })

/-- The condition `skipInteraction` of `Update`: all five fields are filled (a text has
positive byte length exactly when it has a character). -/
def Model.skipInteraction (m : Model) : Bool :=
  decide ((m.inputValue 0).length > 0) && decide ((m.inputValue 1).length > 0) &&
  decide ((m.inputValue 2).length > 0) && decide ((m.inputValue 3).length > 0) &&
  decide ((m.inputValue 4).length > 0)

/-- Go `Model.Update`. -/
def Model.Update (inputUpdate : textinput.Model → Msg → textinput.Model)
    (m : Model) (msg : Msg) : Model × Cmd :=
  if m.skipInteraction && m.isInit then
    ({ m with isInit := false, commitHash := m.inputValue 0, isPending := true }, Cmd.submit)
  else
    let m := { m with isInit := false }
    match msg with
    | Msg.fixVersionMsg text =>
      ({ m with isPending := false, isDone := true, fixVersion := text }, Cmd.none)
    | Msg.KeyMsg s =>
      if s = "ctrl+c" ∨ s = "esc" then (m, Cmd.Quit)
      else if s = "ctrl+r" then
        let mode := m.cursorMode + 1
        let mode := if mode > textinput.CursorHide then textinput.CursorBlink else mode
        ({ m with cursorMode := mode,
                  inputs := m.inputs.map (fun t => t.SetCursorMode mode) }, Cmd.batch)
      else if s = "tab" ∨ s = "shift+tab" ∨ s = "enter" ∨ s = "up" ∨ s = "down" then
        if m.isDone then (m, Cmd.Quit)
        else if s = "enter" ∧ m.focusIndex = (m.inputs.length : Int) then
          ({ m with commitHash := m.inputValue 0, isPending := true }, Cmd.submit)
        else
          let focusIndex :=
            if s = "up" ∨ s = "shift+tab" then m.focusIndex - 1 else m.focusIndex + 1
          let focusIndex :=
            if focusIndex > (m.inputs.length : Int) then 0
            else if focusIndex < 0 then (m.inputs.length : Int)
            else focusIndex
          ({ m with focusIndex := focusIndex, inputs := refocus focusIndex m.inputs },
            Cmd.batch)
      else (m.updateInputs inputUpdate msg, Cmd.batch)
    | Msg.other _ => (m, Cmd.spinner)

/-- The model after a sequence of `Update` calls. -/
def Model.run (inputUpdate : textinput.Model → Msg → textinput.Model)
    (m : Model) (msgs : List Msg) : Model :=
  msgs.foldl (fun m msg => (m.Update inputUpdate msg).1) m

/-- Go `Model.mapTuiInputsToGitConfig`. -/
def Model.mapTuiInputsToGitConfig (m : Model) : GitConfig :=
  { CommitHash := m.inputValue 0
    URL := m.inputValue 1
    RemoteName := m.inputValue 2
    DevelopBranchName := m.inputValue 3
    ReleaseBranchPrependIdentifiers := strings.Split (m.inputValue 4) ' ' }

/-- The state of the loop of `findFixVersion`: the accumulator and the versions queried. -/
structure ScanState where
  fixedVersions : List String
  queried : List String
  deriving DecidableEq

/-- The loop `for _, version := range sortedReleases` of `findFixVersion`, over the
remaining versions; `isPresent version` is the call
`git.IsCommitPresentOnBranch(&gitConfig, rootCommit, releases[version])`. -/
def scanLoop (isPresent : String → Bool) : List String → ScanState → ScanState
  | [], st => st
  | version :: rest, st =>
    if isPresent version then
      scanLoop isPresent rest
        { fixedVersions := st.fixedVersions ++ [version], queried := st.queried ++ [version] }
    else if st.fixedVersions.length > 0 then
      { st with queried := st.queried ++ [version] }
    else
      scanLoop isPresent rest { st with queried := st.queried ++ [version] }

/-- What a call of `findFixVersion` does: the message returned, and (instrumentation) the
accumulator at the end of the loop and the versions queried. -/
structure FixVersionRun where
  message : String
  fixedVersions : List String
  queried : List String
  deriving DecidableEq

/-- The scan order computed by `findFixVersion`. -/
def Model.sortedReleases (g : GitPackage) (m : Model) : List String :=
  g.GetSortedReleases (g.FormatRemoteBranches m.mapTuiInputsToGitConfig)

/-- The root commit computed by `findFixVersion`. -/
def Model.rootCommit (g : GitPackage) (m : Model) : Option g.Commit :=
  g.GetRootCommit m.mapTuiInputsToGitConfig

/-- The ancestry test made by `findFixVersion` for a version, given the root commit. -/
def Model.isPresent (g : GitPackage) (m : Model) (rootCommit : g.Commit)
    (version : String) : Bool :=
  g.IsCommitPresentOnBranch m.mapTuiInputsToGitConfig rootCommit
    (g.lookup (g.FormatRemoteBranches m.mapTuiInputsToGitConfig) version)

/-- Go `Model.findFixVersion`. -/
def Model.findFixVersion (g : GitPackage) (m : Model) : FixVersionRun :=
  let gitConfig := m.mapTuiInputsToGitConfig
  let releases := g.FormatRemoteBranches gitConfig
  let sortedReleases := g.GetSortedReleases releases
  match g.GetRootCommit gitConfig with
  | Option.none =>
    { message := "No such hash in the root of this repo", fixedVersions := [], queried := [] }
  | Option.some rootCommit =>
    let st := scanLoop
      (fun version => g.IsCommitPresentOnBranch gitConfig rootCommit (g.lookup releases version))
      sortedReleases { fixedVersions := [], queried := [] }
    if st.fixedVersions.length > 0 then
      { message := st.fixedVersions.getD (st.fixedVersions.length - 1) "",
        fixedVersions := st.fixedVersions, queried := st.queried }
    else
      { message := "No fixed version found",
        fixedVersions := st.fixedVersions, queried := st.queried }

/-! ### Vocabulary of the statements -/

/-- The versions at the head of the scan order for which the ancestry test fails. -/
def leadingAbsent (p : String → Bool) (l : List String) : List String :=
  l.takeWhile (fun v => !p v)

/-- The first maximal contiguous run of versions for which the ancestry test succeeds: it
starts at the first present version and ends before the next absent one. -/
def confirmedRun (p : String → Bool) (l : List String) : List String :=
  (l.dropWhile (fun v => !p v)).takeWhile p

/-- The versions after the first run, starting at the gap when there is one. -/
def afterRun (p : String → Bool) (l : List String) : List String :=
  (l.dropWhile (fun v => !p v)).dropWhile p

/-- Modelled from the spec: the version type of package `git`, which is not part of the
file. A version is a semantic identifier parsed from the name of a release branch, and the
name of a git branch holds no space; the property of versions kept here is that they hold
no space. -/
def isVersionText (v : String) : Prop := ' ' ∉ v.data

instance isVersionTextDecidable (v : String) : Decidable (isVersionText v) :=
  inferInstanceAs (Decidable (' ' ∉ v.data))

/-! ### Concrete git layers and configurations used as instances -/

/-- A git layer given by a table: the scan order, the versions whose branch contains the
commit, and the outcome of the root commit lookup. -/
def tableGit (order : List String) (present : List String) (root : Option Unit) : GitPackage :=
  { Commit := Unit, Branch := String, Releases := List String, lookup := fun _ v => v,
    FormatRemoteBranches := fun _ => order, GetSortedReleases := fun r => r,
    GetRootCommit := fun _ => root,
    IsCommitPresentOnBranch := fun _ _ b => decide (b ∈ present) }

/-- A configuration with two empty fields, so the form does not submit by itself. -/
def sampleConfig : GitConfig :=
  { CommitHash := "abc", URL := "", RemoteName := "origin", DevelopBranchName := "",
    ReleaseBranchPrependIdentifiers := ["release/", "hotfix/"] }

/-- A configuration with all five fields filled. -/
def filledConfig : GitConfig :=
  { CommitHash := "abc", URL := "https://example.org/repo.git", RemoteName := "origin",
    DevelopBranchName := "develop", ReleaseBranchPrependIdentifiers := ["release/"] }

/-- Versions 5.0, 4.0, 3.0, 2.0 with the commit present on 5.0, 4.0 and 2.0. -/
def sampleGit : GitPackage :=
  tableGit ["5.0", "4.0", "3.0", "2.0"] ["5.0", "4.0", "2.0"] (some ())

/-- Versions 5.0, 4.0, 3.0, 2.0 with the commit present on 5.0 and 4.0 only. -/
def cumulativeGit : GitPackage :=
  tableGit ["5.0", "4.0", "3.0", "2.0"] ["5.0", "4.0"] (some ())

/-- Versions 5.0, 4.0, 3.0, 2.0 with the commit present on all of them. -/
def allPresentGit : GitPackage :=
  tableGit ["5.0", "4.0", "3.0", "2.0"] ["5.0", "4.0", "3.0", "2.0"] (some ())

/-- Versions 3.0, 2.0, 1.0 with the commit present on none. -/
def allAbsentGit : GitPackage :=
  tableGit ["3.0", "2.0", "1.0"] [] (some ())

/-- An empty catalog and an unknown commit. -/
def emptyUnknownGit : GitPackage :=
  tableGit [] [] none

/-- An empty catalog and a known commit. -/
def emptyKnownGit : GitPackage :=
  tableGit [] [] (some ())

/-- An order on version texts for the instances: comparison of the rune lists. -/
def olderText (a b : String) : Prop := a.data < b.data

instance olderTextDecidable (a b : String) : Decidable (olderText a b) :=
  inferInstanceAs (Decidable (a.data < b.data))

/-- A text input that ignores every message. -/
def idleInput (t : textinput.Model) (_msg : Msg) : textinput.Model := t

/-- The form of `sampleConfig` after moving to the submit button, submitting, and
receiving the result of the scan. -/
def doneModel : Model :=
  (InitialModel sampleConfig).run idleInput
    [Msg.KeyMsg "up", Msg.KeyMsg "enter", Msg.fixVersionMsg "1.0"]

end tui
/-! ## The scan of `findFixVersion` -/

namespace tui
open git

/-- The scan order is the leading absent versions, the first run, and the rest. -/
theorem scan_split (p : String → Bool) (l : List String) :
    l = leadingAbsent p l ++ confirmedRun p l ++ afterRun p l := by
  unfold leadingAbsent confirmedRun afterRun
  rw [List.append_assoc, List.takeWhile_append_dropWhile, List.takeWhile_append_dropWhile]

/-- Every leading version is absent. -/
theorem leadingAbsent_absent (p : String → Bool) (l : List String) :
    ∀ v ∈ leadingAbsent p l, p v = false := by
  intro v hv
  have := List.mem_takeWhile_imp hv
  simpa using this

/-- Every version of the first run is present. -/
theorem confirmedRun_present (p : String → Bool) (l : List String) :
    ∀ v ∈ confirmedRun p l, p v = true := by
  intro v hv
  exact List.mem_takeWhile_imp hv

/-- The version following the first run, when there is one, is absent. -/
theorem afterRun_head (p : String → Bool) (l : List String) :
    ∀ v, (afterRun p l).head? = some v → p v = false := by
  intro v hv
  unfold afterRun at hv
  have := List.head?_dropWhile_not p (l.dropWhile (fun v => !p v))
  rw [hv] at this
  simpa using this

/-- The loop once a version is confirmed: it takes the present versions that follow and
stops at the first absent one, which it has queried. -/
theorem scanLoop_started (p : String → Bool) :
    ∀ (l : List String) (st : ScanState), st.fixedVersions ≠ [] →
      scanLoop p l st =
        { fixedVersions := st.fixedVersions ++ l.takeWhile p,
          queried := st.queried ++ l.takeWhile p ++ (l.dropWhile p).take 1 } := by
  intro l
  induction l with
  | nil => intro st _; simp [scanLoop]
  | cons v rest ih =>
    intro st hst
    have hlen : st.fixedVersions.length > 0 := List.length_pos.mpr hst
    by_cases hv : p v = true
    · rw [scanLoop, if_pos hv, ih _ (by simp)]
      simp [List.takeWhile_cons, List.dropWhile_cons, hv]
    · rw [scanLoop, if_neg hv, if_pos hlen]
      simp [List.takeWhile_cons, List.dropWhile_cons, hv]

/-- The loop from an empty accumulator. -/
theorem scanLoop_fresh (p : String → Bool) :
    ∀ (l : List String) (q : List String),
      scanLoop p l { fixedVersions := [], queried := q } =
        { fixedVersions := confirmedRun p l,
          queried := q ++ leadingAbsent p l ++ confirmedRun p l ++ (afterRun p l).take 1 } := by
  intro l
  induction l with
  | nil => intro q; simp [scanLoop, confirmedRun, leadingAbsent, afterRun]
  | cons v rest ih =>
    intro q
    by_cases hv : p v = true
    · rw [scanLoop, if_pos hv, scanLoop_started p rest _ (by simp)]
      simp [confirmedRun, leadingAbsent, afterRun, List.takeWhile_cons, List.dropWhile_cons, hv]
    · rw [scanLoop, if_neg hv, if_neg (by simp), ih]
      simp [confirmedRun, leadingAbsent, afterRun, List.takeWhile_cons, List.dropWhile_cons, hv]

/-- Indexing a non-empty list at `len - 1` gives its last element. -/
theorem getD_last (l : List String) (hne : l ≠ []) :
    l.getD (l.length - 1) "" = l.getLast hne := by
  have hlt : l.length - 1 < l.length := Nat.sub_lt (List.length_pos.mpr hne) Nat.one_pos
  rw [List.getLast_eq_getElem, List.getD_eq_getElem?_getD, List.getElem?_eq_getElem hlt]
  rfl

/-- What `findFixVersion` computes when the root commit resolves. -/
theorem findFixVersion_resolved (g : GitPackage) (m : Model) (c : g.Commit)
    (h : m.rootCommit g = some c) :
    m.findFixVersion g =
      { message := (confirmedRun (m.isPresent g c) (m.sortedReleases g)).getLast?.getD
          "No fixed version found",
        fixedVersions := confirmedRun (m.isPresent g c) (m.sortedReleases g),
        queried := leadingAbsent (m.isPresent g c) (m.sortedReleases g) ++
          confirmedRun (m.isPresent g c) (m.sortedReleases g) ++
          (afterRun (m.isPresent g c) (m.sortedReleases g)).take 1 } := by
  unfold Model.rootCommit at h
  have hs := scanLoop_fresh (m.isPresent g c) (m.sortedReleases g) []
  unfold Model.isPresent Model.sortedReleases at hs
  unfold Model.findFixVersion Model.isPresent Model.sortedReleases
  simp only [h, hs, List.nil_append]
  split
  · rename_i hpos
    have hne := List.length_pos.mp hpos
    rw [List.getLast?_eq_getLast _ hne, getD_last _ hne]
    rfl
  · rename_i hpos
    have hnil := List.length_eq_zero.mp (Nat.eq_zero_of_not_pos hpos)
    rw [hnil]
    rfl


/-- What `findFixVersion` computes when the root commit does not resolve. -/
theorem findFixVersion_unresolved (g : GitPackage) (m : Model)
    (h : m.rootCommit g = none) :
    (m.findFixVersion g).message = "No such hash in the root of this repo" ∧
    (m.findFixVersion g).queried = [] := by
  unfold Model.rootCommit at h
  unfold Model.findFixVersion
  simp only [h]
  trivial

/-- The first run is empty exactly when no version is present. -/
theorem confirmedRun_eq_nil_iff (p : String → Bool) (l : List String) :
    confirmedRun p l = [] ↔ ∀ v ∈ l, p v = false := by
  unfold confirmedRun
  constructor
  · intro h
    have hd : l.dropWhile (fun v => !p v) = [] := by
      cases hdw : l.dropWhile (fun v => !p v) with
      | nil => rfl
      | cons a t =>
        have h1 := List.head?_dropWhile_not (fun v => !p v) l
        rw [hdw] at h1 h
        simp at h1
        simp [List.takeWhile_cons, h1] at h
    intro v hv
    have := List.dropWhile_eq_nil_iff.mp hd v hv
    simpa using this
  · intro h
    have hd : l.dropWhile (fun v => !p v) = [] :=
      List.dropWhile_eq_nil_iff.mpr (fun v hv => by simp [h v hv])
    rw [hd]
    rfl

/-- Nothing follows the first run when no version is present. -/
theorem afterRun_eq_nil_of_absent (p : String → Bool) (l : List String)
    (h : ∀ v ∈ l, p v = false) : afterRun p l = [] := by
  unfold afterRun
  have hd : l.dropWhile (fun v => !p v) = [] :=
    List.dropWhile_eq_nil_iff.mpr (fun v hv => by simp [h v hv])
  rw [hd]
  rfl

/-- Claim C1: with a resolved root commit, `findFixVersion` returns "No fixed version found"
when the predicate is false for every version of the scan order; otherwise the scan order
is `pre ++ run ++ post` with every version of `pre` absent, every version of `run`
present and `post` empty or starting with an absent version, and the message is the last
version of `run`, the first maximal contiguous run of present versions. -/
theorem findFixVersion_first_run (g : GitPackage) (m : Model) (c : g.Commit)
    (h : m.rootCommit g = some c) :
    ((∀ v ∈ m.sortedReleases g, m.isPresent g c v = false) →
      (m.findFixVersion g).message = "No fixed version found") ∧
    ((∃ v ∈ m.sortedReleases g, m.isPresent g c v = true) →
      ∃ pre run post, m.sortedReleases g = pre ++ run ++ post ∧
        (∀ v ∈ pre, m.isPresent g c v = false) ∧
        (∀ v ∈ run, m.isPresent g c v = true) ∧
        (∀ v, post.head? = some v → m.isPresent g c v = false) ∧
        run.getLast? = some (m.findFixVersion g).message) := by
  rw [findFixVersion_resolved g m c h]
  constructor
  · intro hall
    simp only [(confirmedRun_eq_nil_iff _ _).mpr hall]
    rfl
  · rintro ⟨v, hv, hpv⟩
    refine ⟨leadingAbsent (m.isPresent g c) (m.sortedReleases g),
      confirmedRun (m.isPresent g c) (m.sortedReleases g),
      afterRun (m.isPresent g c) (m.sortedReleases g),
      scan_split _ _, leadingAbsent_absent _ _, confirmedRun_present _ _, afterRun_head _ _, ?_⟩
    have hne : confirmedRun (m.isPresent g c) (m.sortedReleases g) ≠ [] := by
      intro hnil
      have := (confirmedRun_eq_nil_iff _ _).mp hnil v hv
      rw [this] at hpv
      exact Bool.noConfusion hpv
    simp only [List.getLast?_eq_getLast _ hne]
    rfl

/-- Instance of C1: versions 5.0, 4.0, 3.0, 2.0 with presence true, true, false, true. -/
theorem findFixVersion_first_run_witness :
    (InitialModel sampleConfig).rootCommit sampleGit = some () ∧
    ∃ pre run post, (InitialModel sampleConfig).sortedReleases sampleGit = pre ++ run ++ post ∧
        (∀ v ∈ pre, (InitialModel sampleConfig).isPresent sampleGit () v = false) ∧
        (∀ v ∈ run, (InitialModel sampleConfig).isPresent sampleGit () v = true) ∧
        (∀ v, post.head? = some v →
          (InitialModel sampleConfig).isPresent sampleGit () v = false) ∧
        run.getLast? = some ((InitialModel sampleConfig).findFixVersion sampleGit).message :=
  ⟨rfl, (findFixVersion_first_run sampleGit (InitialModel sampleConfig) () rfl).2
    ⟨"5.0", by decide, by decide⟩⟩

/-- Claim C2: when the root commit resolver returns no commit, `findFixVersion` returns
exactly "No such hash in the root of this repo" and calls the ancestry predicate zero
times. -/
theorem findFixVersion_unknown_commit (g : GitPackage) (m : Model)
    (h : m.rootCommit g = none) :
    (m.findFixVersion g).message = "No such hash in the root of this repo" ∧
    (m.findFixVersion g).queried = [] :=
  findFixVersion_unresolved g m h

/-- Instance of C2: the sample catalog with an unknown commit. -/
theorem findFixVersion_unknown_commit_witness :
    (InitialModel sampleConfig).rootCommit
        (tableGit ["5.0", "4.0", "3.0", "2.0"] ["5.0", "4.0", "2.0"] none) = none ∧
    ((InitialModel sampleConfig).findFixVersion
        (tableGit ["5.0", "4.0", "3.0", "2.0"] ["5.0", "4.0", "2.0"] none)).message =
      "No such hash in the root of this repo" ∧
    ((InitialModel sampleConfig).findFixVersion
        (tableGit ["5.0", "4.0", "3.0", "2.0"] ["5.0", "4.0", "2.0"] none)).queried = [] :=
  ⟨rfl, findFixVersion_unknown_commit
    (tableGit ["5.0", "4.0", "3.0", "2.0"] ["5.0", "4.0", "2.0"] none)
    (InitialModel sampleConfig) rfl⟩

/-- Claim C3: with a resolved root commit, the versions queried are a prefix of the scan
order, in scan order. Writing the scan order as `pre ++ run ++ post` (leading absent
versions, first run of present versions, rest), either nothing follows the run and the
whole scan order is queried, or the run is not empty, `post` starts with an absent version
`gap` (the first absent version after a present one) and the versions queried are
`pre ++ run ++ [gap]`: nothing after the gap is queried. -/
theorem findFixVersion_queried (g : GitPackage) (m : Model) (c : g.Commit)
    (h : m.rootCommit g = some c) :
    (m.findFixVersion g).queried <+: m.sortedReleases g ∧
    ∃ pre run post, m.sortedReleases g = pre ++ run ++ post ∧
      (∀ v ∈ pre, m.isPresent g c v = false) ∧
      (∀ v ∈ run, m.isPresent g c v = true) ∧
      ((post = [] ∧ (m.findFixVersion g).queried = m.sortedReleases g) ∨
       (run ≠ [] ∧ ∃ gap rest, post = gap :: rest ∧ m.isPresent g c gap = false ∧
          (m.findFixVersion g).queried = pre ++ run ++ [gap])) := by
  rw [findFixVersion_resolved g m c h]
  have hsplit := scan_split (m.isPresent g c) (m.sortedReleases g)
  constructor
  · refine ⟨(afterRun (m.isPresent g c) (m.sortedReleases g)).drop 1, ?_⟩
    simp only [List.append_assoc, List.take_append_drop]
    rw [← List.append_assoc]
    exact hsplit.symm
  · refine ⟨leadingAbsent (m.isPresent g c) (m.sortedReleases g),
      confirmedRun (m.isPresent g c) (m.sortedReleases g),
      afterRun (m.isPresent g c) (m.sortedReleases g),
      hsplit, leadingAbsent_absent _ _, confirmedRun_present _ _, ?_⟩
    cases hafter : afterRun (m.isPresent g c) (m.sortedReleases g) with
    | nil =>
      left
      refine ⟨?_, ?_⟩
      · rfl
      · rw [hafter] at hsplit
        simpa using hsplit.symm
    | cons gap rest =>
      right
      refine ⟨?_, gap, rest, rfl, ?_, ?_⟩
      · intro hnil
        have := afterRun_eq_nil_of_absent _ _ ((confirmedRun_eq_nil_iff _ _).mp hnil)
        rw [this] at hafter
        exact List.noConfusion hafter
      · exact afterRun_head _ _ gap (by rw [hafter]; rfl)
      · rfl


/-- Instance of C3: versions 5.0, 4.0, 3.0, 2.0 with presence true, true, false, true;
the versions queried are a prefix of the scan order. -/
theorem findFixVersion_queried_witness :
    (InitialModel sampleConfig).rootCommit sampleGit = some () ∧
    ((InitialModel sampleConfig).findFixVersion sampleGit).queried <+:
      (InitialModel sampleConfig).sortedReleases sampleGit :=
  ⟨rfl, (findFixVersion_queried sampleGit (InitialModel sampleConfig) () rfl).1⟩

/-- Under the cumulative assumption the present versions are exactly the first run. -/
theorem filter_eq_confirmedRun (p : String → Bool) (l : List String)
    (hcum : l.Pairwise (fun a b => p b = true → p a = true)) :
    l.filter p = confirmedRun p l := by
  have hsplit := scan_split p l
  by_cases hrun : confirmedRun p l = []
  · rw [hrun]
    exact List.filter_eq_nil_iff.mpr
      (fun v hv => by simp [(confirmedRun_eq_nil_iff p l).mp hrun v hv])
  · obtain ⟨r, hr⟩ := List.exists_mem_of_ne_nil _ hrun
    have hpr := confirmedRun_present p l r hr
    rw [hsplit] at hcum
    rw [List.append_assoc] at hcum
    obtain ⟨_, hrest, hcross⟩ := List.pairwise_append.mp hcum
    obtain ⟨_, _, hcross2⟩ := List.pairwise_append.mp hrest
    have hlead : leadingAbsent p l = [] := by
      apply List.eq_nil_iff_forall_not_mem.mpr
      intro a ha
      have h1 := hcross a ha r (List.mem_append_left _ hr) hpr
      rw [leadingAbsent_absent p l a ha] at h1
      exact Bool.noConfusion h1
    have hafter : (afterRun p l).filter p = [] := by
      apply List.filter_eq_nil_iff.mpr
      intro b hb hpb
      cases hA : afterRun p l with
      | nil => rw [hA] at hb; exact List.not_mem_nil _ hb
      | cons gap rest =>
        have hgap := afterRun_head p l gap (by rw [hA]; rfl)
        rw [hA] at hb hrest
        rcases List.mem_cons.mp hb with hbg | hbr
        · rw [hbg, hgap] at hpb; exact Bool.noConfusion hpb
        · obtain ⟨_, hpw, _⟩ := List.pairwise_append.mp hrest
          have := (List.pairwise_cons.mp hpw).1 b hbr hpb
          rw [hgap] at this; exact Bool.noConfusion this
    have hrunf : (confirmedRun p l).filter p = confirmedRun p l :=
      List.filter_eq_self.mpr (confirmedRun_present p l)
    conv_lhs => rw [hsplit]
    rw [List.filter_append, List.filter_append, hlead, hafter, hrunf]
    simp

/-- In a scan order sorted newest first, the last present version is the oldest present one. -/
theorem older_of_last_present (older : String → String → Prop) (p : String → Bool)
    (l : List String) (r : String)
    (hsorted : l.Pairwise (fun a b => older b a))
    (hlast : (l.filter p).getLast? = some r) :
    r ∈ l ∧ p r = true ∧ ∀ v ∈ l, p v = true → v = r ∨ older r v := by
  have hmem : r ∈ l.filter p := List.mem_of_getLast?_eq_some hlast
  obtain ⟨hrl, hpr⟩ := List.mem_filter.mp hmem
  refine ⟨hrl, hpr, ?_⟩
  intro v hv hpv
  have hvf : v ∈ l.filter p := List.mem_filter.mpr ⟨hv, hpv⟩
  have hsf : (l.filter p).Pairwise (fun a b => older b a) := hsorted.sublist (List.filter_sublist l)
  obtain ⟨init, hinit⟩ : ∃ init, l.filter p = init ++ [r] := by
    have hne : l.filter p ≠ [] := List.ne_nil_of_mem hmem
    refine ⟨(l.filter p).dropLast, ?_⟩
    have h1 := List.dropLast_append_getLast hne
    rw [List.getLast?_eq_getLast _ hne] at hlast
    rw [Option.some.inj hlast] at h1
    exact h1.symm
  rw [hinit] at hvf hsf
  rcases List.mem_append.mp hvf with hvi | hvr
  · right
    exact (List.pairwise_append.mp hsf).2.2 v hvi r (List.mem_singleton_self r)
  · left
    exact List.mem_singleton.mp hvr

/-- The scan under the cumulative assumption, for arbitrary version texts: the message is
the last present version, the oldest one; it is "No fixed version found" when no version
is present, and only then provided no present version is that text. -/
theorem cumulative_scan (g : GitPackage) (m : Model) (c : g.Commit)
    (older : String → String → Prop)
    (h : m.rootCommit g = some c)
    (hsorted : (m.sortedReleases g).Pairwise (fun a b => older b a))
    (hcum : (m.sortedReleases g).Pairwise
      (fun a b => m.isPresent g c b = true → m.isPresent g c a = true)) :
    ((∃ v ∈ m.sortedReleases g, m.isPresent g c v = true) →
      ((m.sortedReleases g).filter (m.isPresent g c)).getLast? =
          some (m.findFixVersion g).message ∧
        (m.findFixVersion g).message ∈ m.sortedReleases g ∧
        m.isPresent g c (m.findFixVersion g).message = true ∧
        ∀ v ∈ m.sortedReleases g, m.isPresent g c v = true →
          v = (m.findFixVersion g).message ∨ older (m.findFixVersion g).message v) ∧
    ((∀ v ∈ m.sortedReleases g, m.isPresent g c v = false) →
      (m.findFixVersion g).message = "No fixed version found") ∧
    ((∀ v ∈ m.sortedReleases g, m.isPresent g c v = true → v ≠ "No fixed version found") →
      ((m.findFixVersion g).message = "No fixed version found" ↔
        ∀ v ∈ m.sortedReleases g, m.isPresent g c v = false)) := by
  have hfilter := filter_eq_confirmedRun _ _ hcum
  have hmsg : (m.findFixVersion g).message =
      ((m.sortedReleases g).filter (m.isPresent g c)).getLast?.getD "No fixed version found" := by
    rw [findFixVersion_resolved g m c h, hfilter]
  have hsome : (∃ v ∈ m.sortedReleases g, m.isPresent g c v = true) →
      ((m.sortedReleases g).filter (m.isPresent g c)).getLast? =
        some (m.findFixVersion g).message := by
    rintro ⟨v, hv, hpv⟩
    have hne : (m.sortedReleases g).filter (m.isPresent g c) ≠ [] :=
      List.ne_nil_of_mem (List.mem_filter.mpr ⟨hv, hpv⟩)
    rw [hmsg, List.getLast?_eq_getLast _ hne]
    rfl
  have hnone : (∀ v ∈ m.sortedReleases g, m.isPresent g c v = false) →
      (m.findFixVersion g).message = "No fixed version found" := by
    intro hall
    have hnil : (m.sortedReleases g).filter (m.isPresent g c) = [] :=
      List.filter_eq_nil_iff.mpr (fun v hv => by simp [hall v hv])
    rw [hmsg, hnil]
    rfl
  refine ⟨?_, hnone, ?_⟩
  · intro hex
    have hl := hsome hex
    exact ⟨hl, older_of_last_present older _ _ _ hsorted hl⟩
  · intro hfree
    refine ⟨?_, hnone⟩
    intro heq v hv
    by_contra hpv
    have hpv : m.isPresent g c v = true := by simpa using hpv
    have hl := hsome ⟨v, hv, hpv⟩
    obtain ⟨hin, hp, _⟩ := older_of_last_present older _ _ _ hsorted hl
    exact hfree _ hin hp heq

/-- A version is neither of the two messages, which hold spaces. -/
theorem version_ne_message (v : String) (hv : isVersionText v) :
    v ≠ "No such hash in the root of this repo" ∧ v ≠ "No fixed version found" := by
  constructor
  · intro heq
    rw [heq] at hv
    exact absurd hv (by decide)
  · intro heq
    rw [heq] at hv
    exact absurd hv (by decide)

/-- Claim C4: under the cumulative-release assumption, for a scan order of versions
sorted newest first without duplicates and a resolved root commit, when the predicate is
true for some version the message is the last such version of the scan order, which is the
oldest version of the catalog for which the predicate is true; and the message is
"No fixed version found" exactly when the predicate is true for no version. -/
theorem findFixVersion_cumulative (g : GitPackage) (m : Model) (c : g.Commit)
    (older : String → String → Prop)
    (h : m.rootCommit g = some c)
    (hver : ∀ v ∈ m.sortedReleases g, isVersionText v)
    (hsorted : (m.sortedReleases g).Pairwise (fun a b => older b a))
    (_hnodup : (m.sortedReleases g).Nodup)
    (hcum : (m.sortedReleases g).Pairwise
      (fun a b => m.isPresent g c b = true → m.isPresent g c a = true)) :
    ((∃ v ∈ m.sortedReleases g, m.isPresent g c v = true) →
      ((m.sortedReleases g).filter (m.isPresent g c)).getLast? =
          some (m.findFixVersion g).message ∧
        (m.findFixVersion g).message ∈ m.sortedReleases g ∧
        m.isPresent g c (m.findFixVersion g).message = true ∧
        ∀ v ∈ m.sortedReleases g, m.isPresent g c v = true →
          v = (m.findFixVersion g).message ∨ older (m.findFixVersion g).message v) ∧
    ((m.findFixVersion g).message = "No fixed version found" ↔
      ∀ v ∈ m.sortedReleases g, m.isPresent g c v = false) := by
  have hcore := cumulative_scan g m c older h hsorted hcum
  exact ⟨hcore.1, hcore.2.2 (fun v hv _ => (version_ne_message v (hver v hv)).2)⟩

/-- Instance of C4: versions 5.0, 4.0, 3.0, 2.0 with the commit on 5.0 and 4.0. -/
theorem findFixVersion_cumulative_witness :
    (InitialModel sampleConfig).rootCommit cumulativeGit = some () ∧
    (∀ v ∈ (InitialModel sampleConfig).sortedReleases cumulativeGit, isVersionText v) ∧
    ((InitialModel sampleConfig).sortedReleases cumulativeGit).Pairwise
      (fun a b => olderText b a) ∧
    ((InitialModel sampleConfig).sortedReleases cumulativeGit).Nodup ∧
    (((InitialModel sampleConfig).sortedReleases cumulativeGit).filter
        ((InitialModel sampleConfig).isPresent cumulativeGit ())).getLast? =
      some ((InitialModel sampleConfig).findFixVersion cumulativeGit).message ∧
    (((InitialModel sampleConfig).findFixVersion cumulativeGit).message =
        "No fixed version found" ↔
      ∀ v ∈ (InitialModel sampleConfig).sortedReleases cumulativeGit,
        (InitialModel sampleConfig).isPresent cumulativeGit () v = false) :=
  ⟨rfl, by decide, by decide, by decide,
    ((findFixVersion_cumulative cumulativeGit (InitialModel sampleConfig) () olderText rfl
      (by decide) (by decide) (by decide) (by decide)).1 ⟨"5.0", by decide, by decide⟩).1,
    (findFixVersion_cumulative cumulativeGit (InitialModel sampleConfig) () olderText rfl
      (by decide) (by decide) (by decide) (by decide)).2⟩

/-- Counterexample to C5 as stated: with an empty catalog and an unresolved root commit
the message is not "No fixed version found". -/
theorem findFixVersion_empty_catalog_unknown_commit :
    (InitialModel sampleConfig).sortedReleases emptyUnknownGit = [] ∧
    ((InitialModel sampleConfig).findFixVersion emptyUnknownGit).message =
      "No such hash in the root of this repo" ∧
    ((InitialModel sampleConfig).findFixVersion emptyUnknownGit).message ≠
      "No fixed version found" := by
  decide

/-- Claim C5, amended: when the scan order is empty, `findFixVersion` calls the ancestry
predicate zero times; it returns "No fixed version found" when the root commit resolves
and "No such hash in the root of this repo" when it does not. -/
theorem findFixVersion_empty_catalog (g : GitPackage) (m : Model)
    (hempty : m.sortedReleases g = []) :
    (m.findFixVersion g).queried = [] ∧
    (m.rootCommit g = none →
      (m.findFixVersion g).message = "No such hash in the root of this repo") ∧
    (∀ c, m.rootCommit g = some c →
      (m.findFixVersion g).message = "No fixed version found") := by
  have hres : ∀ c, m.rootCommit g = some c →
      (m.findFixVersion g).queried = [] ∧
      (m.findFixVersion g).message = "No fixed version found" := by
    intro c hc
    rw [findFixVersion_resolved g m c hc, hempty]
    exact ⟨rfl, rfl⟩
  refine ⟨?_, fun hn => (findFixVersion_unresolved g m hn).1, fun c hc => (hres c hc).2⟩
  cases hroot : m.rootCommit g with
  | none => exact (findFixVersion_unresolved g m hroot).2
  | some c => exact (hres c hroot).1

/-- Instance of C5: an empty catalog with a known commit. -/
theorem findFixVersion_empty_catalog_witness :
    (InitialModel sampleConfig).sortedReleases emptyKnownGit = [] ∧
    ((InitialModel sampleConfig).findFixVersion emptyKnownGit).queried = [] ∧
    ((InitialModel sampleConfig).findFixVersion emptyKnownGit).message =
      "No fixed version found" :=
  ⟨rfl, (findFixVersion_empty_catalog emptyKnownGit (InitialModel sampleConfig) rfl).1,
    (findFixVersion_empty_catalog emptyKnownGit (InitialModel sampleConfig)
      rfl).2.2 () rfl⟩

/-- Claim C6: for a non-empty scan order sorted newest first and a resolved root commit,
when the predicate is true for every version the message is the last element of the scan
order, which is the oldest version of the catalog. -/
theorem findFixVersion_all_present (g : GitPackage) (m : Model) (c : g.Commit)
    (older : String → String → Prop)
    (h : m.rootCommit g = some c)
    (hne : m.sortedReleases g ≠ [])
    (hsorted : (m.sortedReleases g).Pairwise (fun a b => older b a))
    (hall : ∀ v ∈ m.sortedReleases g, m.isPresent g c v = true) :
    (m.findFixVersion g).message = (m.sortedReleases g).getLast hne ∧
    ∀ v ∈ m.sortedReleases g,
      v = (m.findFixVersion g).message ∨ older (m.findFixVersion g).message v := by
  have hcum : (m.sortedReleases g).Pairwise
      (fun a b => m.isPresent g c b = true → m.isPresent g c a = true) :=
    List.pairwise_of_forall_mem_list (fun a ha _ _ _ => hall a ha)
  have hrun : confirmedRun (m.isPresent g c) (m.sortedReleases g) = m.sortedReleases g := by
    rw [← filter_eq_confirmedRun _ _ hcum]
    exact List.filter_eq_self.mpr hall
  have hmsg : (m.findFixVersion g).message = (m.sortedReleases g).getLast hne := by
    rw [findFixVersion_resolved g m c h]
    simp only [hrun, List.getLast?_eq_getLast _ hne]
    rfl
  refine ⟨hmsg, ?_⟩
  intro v hv
  have hfil : (m.sortedReleases g).filter (m.isPresent g c) = m.sortedReleases g :=
    List.filter_eq_self.mpr hall
  have hlast : ((m.sortedReleases g).filter (m.isPresent g c)).getLast? =
      some (m.findFixVersion g).message := by
    rw [hfil, hmsg, List.getLast?_eq_getLast _ hne]
  exact (older_of_last_present older _ _ _ hsorted hlast).2.2 v hv (hall v hv)

/-- Instance of C6: versions 5.0, 4.0, 3.0, 2.0, all present. -/
theorem findFixVersion_all_present_witness :
    (InitialModel sampleConfig).rootCommit allPresentGit = some () ∧
    ((InitialModel sampleConfig).findFixVersion allPresentGit).message = "2.0" ∧
    ∀ v ∈ (InitialModel sampleConfig).sortedReleases allPresentGit,
      v = ((InitialModel sampleConfig).findFixVersion allPresentGit).message ∨
      olderText ((InitialModel sampleConfig).findFixVersion allPresentGit).message v :=
  ⟨rfl, findFixVersion_all_present allPresentGit (InitialModel sampleConfig) () olderText rfl
    (by decide) (by decide) (by decide)⟩


/-- Every queried version belongs to the scan order. -/
theorem queried_subset (p : String → Bool) (l : List String) :
    ∀ v ∈ leadingAbsent p l ++ confirmedRun p l ++ (afterRun p l).take 1, v ∈ l := by
  intro v hv
  rw [scan_split p l]
  rcases List.mem_append.mp hv with h1 | h2
  · exact List.mem_append_left _ h1
  · exact List.mem_append_right _ (List.mem_of_mem_take h2)

/-- The three outcomes for arbitrary version texts, provided no present version is itself
one of the two messages. -/
theorem outcomes_of_distinct_texts (g : GitPackage) (m : Model)
    (hfree : ∀ c, m.rootCommit g = some c → ∀ v ∈ m.sortedReleases g,
      m.isPresent g c v = true →
        v ≠ "No such hash in the root of this repo" ∧ v ≠ "No fixed version found") :
    ((m.findFixVersion g).message = "No such hash in the root of this repo" ↔
      m.rootCommit g = none) ∧
    ((m.findFixVersion g).message = "No fixed version found" ↔
      ∃ c, m.rootCommit g = some c ∧
        ∀ v ∈ (m.findFixVersion g).queried, m.isPresent g c v = false) ∧
    ((m.findFixVersion g).message ≠ "No such hash in the root of this repo" →
      (m.findFixVersion g).message ≠ "No fixed version found" →
      ∃ c, m.rootCommit g = some c ∧ (m.findFixVersion g).message ∈ m.sortedReleases g ∧
        m.isPresent g c (m.findFixVersion g).message = true) := by
  cases hroot : m.rootCommit g with
  | none =>
    have hmsg := (findFixVersion_unresolved g m hroot).1
    refine ⟨⟨fun _ => rfl, fun _ => hmsg⟩, ⟨?_, ?_⟩, ?_⟩
    · intro h
      rw [hmsg] at h
      exact absurd h (by decide)
    · rintro ⟨c, hc, _⟩
      exact Option.noConfusion hc
    · intro h1 _
      exact absurd hmsg h1
  | some c =>
    have hres := findFixVersion_resolved g m c hroot
    have hfree := hfree c hroot
    by_cases hrun : confirmedRun (m.isPresent g c) (m.sortedReleases g) = []
    · have hmsg : (m.findFixVersion g).message = "No fixed version found" := by
        rw [hres, hrun]; rfl
      have hq : ∀ v ∈ (m.findFixVersion g).queried, m.isPresent g c v = false := by
        intro v hv
        rw [hres] at hv
        exact (confirmedRun_eq_nil_iff _ _).mp hrun v (queried_subset _ _ v hv)
      refine ⟨⟨?_, fun hn => Option.noConfusion hn⟩, ⟨fun _ => ⟨c, rfl, hq⟩, fun _ => hmsg⟩, ?_⟩
      · intro h
        rw [hmsg] at h
        exact absurd h (by decide)
      · intro _ h2
        exact absurd hmsg h2
    · obtain ⟨hmem, hpres⟩ : (m.findFixVersion g).message ∈ m.sortedReleases g ∧
          m.isPresent g c (m.findFixVersion g).message = true := by
        have hlast : (m.findFixVersion g).message =
            (confirmedRun (m.isPresent g c) (m.sortedReleases g)).getLast hrun := by
          rw [hres]
          simp only [List.getLast?_eq_getLast _ hrun]
          rfl
        have hin := List.getLast_mem hrun
        rw [← hlast] at hin
        refine ⟨?_, confirmedRun_present _ _ _ hin⟩
        rw [scan_split (m.isPresent g c) (m.sortedReleases g)]
        exact List.mem_append_left _ (List.mem_append_right _ hin)
      have hinq : (m.findFixVersion g).message ∈ (m.findFixVersion g).queried := by
        have hlast : (m.findFixVersion g).message ∈
            confirmedRun (m.isPresent g c) (m.sortedReleases g) := by
          have hin := List.getLast_mem hrun
          have hl : (m.findFixVersion g).message =
              (confirmedRun (m.isPresent g c) (m.sortedReleases g)).getLast hrun := by
            rw [hres]
            simp only [List.getLast?_eq_getLast _ hrun]
            rfl
          rw [hl]; exact hin
        have hq : (m.findFixVersion g).queried =
            leadingAbsent (m.isPresent g c) (m.sortedReleases g) ++
              confirmedRun (m.isPresent g c) (m.sortedReleases g) ++
              (afterRun (m.isPresent g c) (m.sortedReleases g)).take 1 := by
          rw [hres]
        rw [hq]
        exact List.mem_append_left _ (List.mem_append_right _ hlast)
      refine ⟨⟨fun h => absurd h (hfree _ hmem hpres).1, fun hn => Option.noConfusion hn⟩,
        ⟨fun h => absurd h (hfree _ hmem hpres).2, ?_⟩, fun _ _ => ⟨c, rfl, hmem, hpres⟩⟩
      rintro ⟨c2, hc2, hq⟩
      have hcc : c2 = c := (Option.some.inj hc2).symm
      subst hcc
      have := hq _ hinq
      rw [hpres] at this
      exact Bool.noConfusion this

/-- Claim C7: for every scan order of versions, the three outcomes are told apart by the
message alone. The message is "No such hash in the root of this repo" exactly when the
root commit did not resolve; it is "No fixed version found" exactly when the root commit
resolved and every queried version is absent, so none was confirmed; in every other case
it is a version of the scan order for which the predicate is true. -/
theorem findFixVersion_outcomes (g : GitPackage) (m : Model)
    (hver : ∀ v ∈ m.sortedReleases g, isVersionText v) :
    ((m.findFixVersion g).message = "No such hash in the root of this repo" ↔
      m.rootCommit g = none) ∧
    ((m.findFixVersion g).message = "No fixed version found" ↔
      ∃ c, m.rootCommit g = some c ∧
        ∀ v ∈ (m.findFixVersion g).queried, m.isPresent g c v = false) ∧
    ((m.findFixVersion g).message ≠ "No such hash in the root of this repo" →
      (m.findFixVersion g).message ≠ "No fixed version found" →
      ∃ c, m.rootCommit g = some c ∧ (m.findFixVersion g).message ∈ m.sortedReleases g ∧
        m.isPresent g c (m.findFixVersion g).message = true) :=
  outcomes_of_distinct_texts g m (fun _ _ v hv _ => version_ne_message v (hver v hv))

/-- Instance of C7: the sample catalog, whose result is a version. -/
theorem findFixVersion_outcomes_witness :
    (∀ v ∈ (InitialModel sampleConfig).sortedReleases sampleGit, isVersionText v) ∧
    ((InitialModel sampleConfig).findFixVersion sampleGit).message ≠
        "No such hash in the root of this repo" ∧
    ((InitialModel sampleConfig).findFixVersion sampleGit).message ≠ "No fixed version found" ∧
    ∃ c, (InitialModel sampleConfig).rootCommit sampleGit = some c ∧
      ((InitialModel sampleConfig).findFixVersion sampleGit).message ∈
        (InitialModel sampleConfig).sortedReleases sampleGit ∧
      (InitialModel sampleConfig).isPresent sampleGit c
        ((InitialModel sampleConfig).findFixVersion sampleGit).message = true :=
  ⟨by decide, by decide, by decide,
    (findFixVersion_outcomes sampleGit (InitialModel sampleConfig) (by decide)).2.2
      (by decide) (by decide)⟩

/-- Counterexample to C8 as stated: three versions, the commit on none of them. All three
are queried while the confirmed run is empty. -/
theorem findFixVersion_all_absent_queries :
    ¬ (((InitialModel sampleConfig).findFixVersion allAbsentGit).queried.length ≤
      ((InitialModel sampleConfig).findFixVersion allAbsentGit).fixedVersions.length + 1) := by
  decide

/-- Claim C8, amended: with a resolved root commit the number of ancestry queries is at
most the number of absent versions scanned before the first present one, plus the length
of the confirmed run, plus one; when the newest version is present it is at most the
length of the confirmed run plus one. -/
theorem findFixVersion_query_bound (g : GitPackage) (m : Model) (c : g.Commit)
    (h : m.rootCommit g = some c) :
    (m.findFixVersion g).queried.length ≤
      ((m.sortedReleases g).takeWhile (fun v => !m.isPresent g c v)).length +
        (m.findFixVersion g).fixedVersions.length + 1 ∧
    (∀ v, (m.sortedReleases g).head? = some v → m.isPresent g c v = true →
      (m.findFixVersion g).queried.length ≤ (m.findFixVersion g).fixedVersions.length + 1) := by
  rw [findFixVersion_resolved g m c h]
  have htake : ((afterRun (m.isPresent g c) (m.sortedReleases g)).take 1).length ≤ 1 :=
    List.length_take_le 1 _
  constructor
  · simp only [List.length_append]
    unfold leadingAbsent
    omega
  · intro v hv hpv
    have hlead : leadingAbsent (m.isPresent g c) (m.sortedReleases g) = [] := by
      unfold leadingAbsent
      cases hl : m.sortedReleases g with
      | nil => rfl
      | cons a t =>
        rw [hl] at hv
        have hav : a = v := Option.some.inj hv
        rw [List.takeWhile_cons, hav, hpv]
        rfl
    simp only [hlead, List.nil_append, List.length_append]
    omega

/-- Instance of C8: the sample catalog. -/
theorem findFixVersion_query_bound_witness :
    (InitialModel sampleConfig).rootCommit sampleGit = some () ∧
    ((InitialModel sampleConfig).findFixVersion sampleGit).queried.length ≤
      (((InitialModel sampleConfig).sortedReleases sampleGit).takeWhile
        (fun v => !(InitialModel sampleConfig).isPresent sampleGit () v)).length +
        ((InitialModel sampleConfig).findFixVersion sampleGit).fixedVersions.length + 1 :=
  ⟨rfl, (findFixVersion_query_bound sampleGit (InitialModel sampleConfig) () rfl).1⟩

/-- The example of the specification: versions 5.0, 4.0, 3.0, 2.0 with presence true, true,
false, true give 4.0; the scan stops at 3.0 and 2.0 is never queried. -/
theorem findFixVersion_example :
    ((InitialModel sampleConfig).findFixVersion sampleGit).message = "4.0" ∧
    ((InitialModel sampleConfig).findFixVersion sampleGit).queried = ["5.0", "4.0", "3.0"] ∧
    "2.0" ∉ ((InitialModel sampleConfig).findFixVersion sampleGit).queried := by
  decide

end tui

/-! ## The release identifiers through the form -/

namespace strings

/-- A split always has a piece. -/
theorem splitRunes_ne_nil (sep : Char) (x : List Char) : splitRunes sep x ≠ [] := by
  cases x with
  | nil => simp [splitRunes]
  | cons c cs =>
    unfold splitRunes
    split
    · simp
    · split <;> simp

/-- Splitting two texts joined by the separator splits each of them. -/
theorem splitRunes_append_sep (sep : Char) (x y : List Char) :
    splitRunes sep (x ++ sep :: y) = splitRunes sep x ++ splitRunes sep y := by
  induction x with
  | nil => simp [splitRunes]
  | cons c cs ih =>
    by_cases hc : c = sep
    · simp [splitRunes, hc, ih]
    · have hne := splitRunes_ne_nil sep cs
      cases hs : splitRunes sep cs with
      | nil => exact absurd hs hne
      | cons piece pieces =>
        simp [splitRunes, hc, ih, hs]

/-- A text without the separator is its only piece. -/
theorem splitRunes_of_not_mem (sep : Char) (x : List Char) (h : sep ∉ x) :
    splitRunes sep x = [x] := by
  induction x with
  | nil => rfl
  | cons c cs ih =>
    have hc : c ≠ sep := fun e => h (by simp [e])
    have hcs : sep ∉ cs := fun e => h (List.mem_cons_of_mem _ e)
    simp [splitRunes, hc, ih hcs]

/-- `Split` of a text without the separator. -/
theorem Split_of_not_mem (sep : Char) (s : String) (h : sep ∉ s.data) :
    Split s sep = [s] := by
  unfold Split
  rw [splitRunes_of_not_mem sep s.data h]
  rfl

/-- `Split` of two texts joined by the separator. -/
theorem Split_append_sep (sep : Char) (a s : String) :
    Split (a ++ String.singleton sep ++ s) sep = Split a sep ++ Split s sep := by
  unfold Split
  have : (a ++ String.singleton sep ++ s).data = a.data ++ sep :: s.data := by
    simp [String.data_append, String.singleton]
  rw [this, splitRunes_append_sep, List.map_append]

/-- `Split` of the text accumulated by the loop of `Join`. -/
theorem Split_foldl (sep : Char) (rest : List String) (h : ∀ s ∈ rest, sep ∉ s.data) :
    ∀ acc : String,
      Split (rest.foldl (fun b s => b ++ String.singleton sep ++ s) acc) sep =
        Split acc sep ++ rest := by
  induction rest with
  | nil => intro acc; simp
  | cons s t ih =>
    intro acc
    rw [List.foldl_cons, ih (fun x hx => h x (List.mem_cons_of_mem _ hx)),
      Split_append_sep, Split_of_not_mem sep s (h s (List.mem_cons_self _ _))]
    simp

/-- `Split` undoes `Join` on a non-empty list of texts without space. -/
theorem Split_Join (elems : List String) (hne : elems ≠ [])
    (h : ∀ s ∈ elems, ' ' ∉ s.data) : Split (Join elems " ") ' ' = elems := by
  cases elems with
  | nil => exact absurd rfl hne
  | cons first rest =>
    have hrest := Split_foldl ' ' rest (fun x hx => h x (List.mem_cons_of_mem _ hx)) first
    have hsing : String.singleton ' ' = " " := rfl
    rw [hsing] at hrest
    unfold Join
    rw [hrest, Split_of_not_mem ' ' first (h first (List.mem_cons_self _ _))]
    rfl

end strings

namespace tui
open git

/-- The identifiers read back from the initial form are the split of its fifth field. -/
theorem InitialModel_identifiers (gc : GitConfig) :
    (InitialModel gc).mapTuiInputsToGitConfig.ReleaseBranchPrependIdentifiers =
      strings.Split (initialInput gc 4).Value ' ' := by
  rfl

/-- The fifth field holds the joined identifiers when they fit. -/
theorem initialInput_identifiers (gc : GitConfig)
    (hfit : (strings.Join gc.ReleaseBranchPrependIdentifiers " ").length ≤ 120) :
    (initialInput gc 4).Value = strings.Join gc.ReleaseBranchPrependIdentifiers " " := by
  unfold initialInput textinput.Model.SetValue
  simp only []
  rw [if_neg (by omega)]
  rfl

/-- Claim C9: when no release identifier contains a space and their space-joined text has
at most 120 characters, the identifiers that `mapTuiInputsToGitConfig` reads back from the
form built by `InitialModel` are the configured ones when the list is not empty, and the
one-element list of the empty text when it is empty. -/
theorem identifiers_round_trip (gc : GitConfig)
    (hspace : ∀ s ∈ gc.ReleaseBranchPrependIdentifiers, ' ' ∉ s.data)
    (hfit : (strings.Join gc.ReleaseBranchPrependIdentifiers " ").length ≤ 120) :
    (InitialModel gc).mapTuiInputsToGitConfig.ReleaseBranchPrependIdentifiers =
      if gc.ReleaseBranchPrependIdentifiers = [] then [""]
      else gc.ReleaseBranchPrependIdentifiers := by
  rw [InitialModel_identifiers, initialInput_identifiers gc hfit]
  by_cases hnil : gc.ReleaseBranchPrependIdentifiers = []
  · rw [if_pos hnil, hnil]
    rfl
  · rw [if_neg hnil]
    exact strings.Split_Join _ hnil hspace

/-- Instance of C9: the identifiers `release/` and `hotfix/`. -/
theorem identifiers_round_trip_witness :
    (∀ s ∈ sampleConfig.ReleaseBranchPrependIdentifiers, ' ' ∉ s.data) ∧
    (strings.Join sampleConfig.ReleaseBranchPrependIdentifiers " ").length ≤ 120 ∧
    (InitialModel sampleConfig).mapTuiInputsToGitConfig.ReleaseBranchPrependIdentifiers =
      ["release/", "hotfix/"] :=
  ⟨by decide, by decide, identifiers_round_trip sampleConfig (by decide) (by decide)⟩


/-! ## The focus index -/

/-- The focus loop keeps the number of inputs. -/
theorem refocus_length (focusIndex : Int) (inputs : List textinput.Model) :
    (refocus focusIndex inputs).length = inputs.length := by
  simp [refocus]

/-- `Update` keeps the number of inputs. -/
theorem Update_inputs_length (u : textinput.Model → Msg → textinput.Model) (m : Model)
    (msg : Msg) : (m.Update u msg).1.inputs.length = m.inputs.length := by
  unfold Model.Update
  split
  · rfl
  · cases msg with
    | fixVersionMsg text => rfl
    | other tag => rfl
    | KeyMsg s =>
      simp only []
      split_ifs <;> simp [refocus_length, Model.updateInputs]

/-- `Update` keeps the focus index within its bounds. -/
theorem Update_focus_bounds (u : textinput.Model → Msg → textinput.Model) (m : Model)
    (msg : Msg) (h0 : 0 ≤ m.focusIndex) (h1 : m.focusIndex ≤ (m.inputs.length : Int)) :
    0 ≤ (m.Update u msg).1.focusIndex ∧
      (m.Update u msg).1.focusIndex ≤ ((m.Update u msg).1.inputs.length : Int) := by
  rw [Update_inputs_length]
  unfold Model.Update
  split
  · exact ⟨h0, h1⟩
  · cases msg with
    | fixVersionMsg text => exact ⟨h0, h1⟩
    | other tag => exact ⟨h0, h1⟩
    | KeyMsg s =>
      simp only []
      split_ifs <;> simp only [Model.updateInputs] <;> constructor <;> omega

/-- The bounds hold along every sequence of updates. -/
theorem run_invariant (u : textinput.Model → Msg → textinput.Model) (msgs : List Msg) :
    ∀ m : Model, m.inputs.length = 5 → 0 ≤ m.focusIndex →
      m.focusIndex ≤ (m.inputs.length : Int) →
      (m.run u msgs).inputs.length = 5 ∧ 0 ≤ (m.run u msgs).focusIndex ∧
        (m.run u msgs).focusIndex ≤ ((m.run u msgs).inputs.length : Int) := by
  induction msgs with
  | nil => intro m h5 h0 h1; exact ⟨h5, h0, h1⟩
  | cons msg rest ih =>
    intro m h5 h0 h1
    have hb := Update_focus_bounds u m msg h0 h1
    have hl := Update_inputs_length u m msg
    exact ih (m.Update u msg).1 (hl.trans h5) hb.1 hb.2

/-- A done form, and the first update of a filled form, leave the focus index. -/
theorem Update_idle (u : textinput.Model → Msg → textinput.Model) (m : Model) (msg : Msg)
    (h : m.isDone = true ∨ (m.skipInteraction && m.isInit) = true) :
    (m.Update u msg).1.focusIndex = m.focusIndex := by
  unfold Model.Update
  split
  · rfl
  · rename_i hskip
    rcases h with hd | hs
    · cases msg with
      | fixVersionMsg text => rfl
      | other tag => rfl
      | KeyMsg s =>
        simp only []
        split_ifs <;> simp_all [Model.updateInputs]
    · exact absurd hs hskip

/-- A message other than the five navigation keys leaves the focus index. -/
theorem Update_other (u : textinput.Model → Msg → textinput.Model) (m : Model) (msg : Msg)
    (h : ∀ s, msg = Msg.KeyMsg s →
      s ≠ "tab" ∧ s ≠ "shift+tab" ∧ s ≠ "enter" ∧ s ≠ "up" ∧ s ≠ "down") :
    (m.Update u msg).1.focusIndex = m.focusIndex := by
  unfold Model.Update
  split
  · rfl
  · cases msg with
    | fixVersionMsg text => rfl
    | other tag => rfl
    | KeyMsg s =>
      obtain ⟨h1, h2, h3, h4, h5⟩ := h s rfl
      simp only []
      split_ifs <;> simp_all [Model.updateInputs]

/-- The keys `tab` and `down` on the submit button move the focus to the first input. -/
theorem Update_next_wraps (u : textinput.Model → Msg → textinput.Model) (m : Model)
    (s : String) (hs : s = "tab" ∨ s = "down") (hdone : m.isDone = false)
    (hskip : (m.skipInteraction && m.isInit) = false)
    (hfocus : m.focusIndex = (m.inputs.length : Int)) :
    (m.Update u (Msg.KeyMsg s)).1.focusIndex = 0 := by
  unfold Model.Update
  rw [if_neg (by simp [hskip])]
  rcases hs with hs | hs <;> subst hs <;> simp [hdone, hfocus]

/-- The key `enter` on the submit button submits. -/
theorem Update_enter_submits (u : textinput.Model → Msg → textinput.Model) (m : Model)
    (hdone : m.isDone = false)
    (hskip : (m.skipInteraction && m.isInit) = false)
    (hfocus : m.focusIndex = (m.inputs.length : Int)) :
    (m.Update u (Msg.KeyMsg "enter")).1.focusIndex = m.focusIndex ∧
      (m.Update u (Msg.KeyMsg "enter")).2 = Cmd.submit := by
  unfold Model.Update
  rw [if_neg (by simp [hskip])]
  simp [hdone, hfocus]

/-- The keys `up` and `shift+tab` on the first input move the focus to the submit button. -/
theorem Update_previous_wraps (u : textinput.Model → Msg → textinput.Model) (m : Model)
    (s : String) (hs : s = "up" ∨ s = "shift+tab") (hdone : m.isDone = false)
    (hskip : (m.skipInteraction && m.isInit) = false)
    (hfocus : m.focusIndex = 0) :
    (m.Update u (Msg.KeyMsg s)).1.focusIndex = (m.inputs.length : Int) := by
  unfold Model.Update
  rw [if_neg (by simp [hskip])]
  rcases hs with hs | hs <;> subst hs <;> simp [hdone, hfocus] <;> omega

/-- Counterexample to C10 as stated. Once the result of the scan has arrived, `tab` on the
submit button does not submit and leaves the focus there; and when all five fields are
filled, `up` on the first update leaves the focus at 0. -/
theorem Update_done_does_not_wrap :
    (doneModel.focusIndex = (doneModel.inputs.length : Int) ∧
      (doneModel.Update idleInput (Msg.KeyMsg "tab")).2 ≠ Cmd.submit ∧
      (doneModel.Update idleInput (Msg.KeyMsg "tab")).1.focusIndex ≠ 0) ∧
    ((InitialModel filledConfig).focusIndex = 0 ∧
      ((InitialModel filledConfig).Update idleInput (Msg.KeyMsg "up")).1.focusIndex ≠
        (((InitialModel filledConfig).Update idleInput (Msg.KeyMsg "up")).1.inputs.length :
          Int)) := by
  decide

/-- Claim C10, amended: after any sequence of updates from `InitialModel` the form has five
inputs and `0 <= focusIndex <= len(inputs)`. For every model: when the form is done or the
update is the first one with all fields filled, no message changes `focusIndex`;
otherwise `tab` and `down` at `len(inputs)` wrap to 0, `enter` at `len(inputs)` submits
and leaves `focusIndex`, and `up` and `shift+tab` at 0 wrap to `len(inputs)`; a message
other than the five keys `tab`, `shift+tab`, `enter`, `up`, `down` never changes
`focusIndex`. -/
theorem Update_focus_invariant (u : textinput.Model → Msg → textinput.Model) (gc : GitConfig)
    (msgs : List Msg) :
    (((InitialModel gc).run u msgs).inputs.length = 5 ∧
      0 ≤ ((InitialModel gc).run u msgs).focusIndex ∧
      ((InitialModel gc).run u msgs).focusIndex ≤
        (((InitialModel gc).run u msgs).inputs.length : Int)) ∧
    ∀ (m : Model) (msg : Msg),
      ((m.isDone = true ∨ (m.skipInteraction && m.isInit) = true) →
        (m.Update u msg).1.focusIndex = m.focusIndex) ∧
      (m.isDone = false → (m.skipInteraction && m.isInit) = false →
        (∀ s, (s = "tab" ∨ s = "down") → m.focusIndex = (m.inputs.length : Int) →
          (m.Update u (Msg.KeyMsg s)).1.focusIndex = 0) ∧
        (m.focusIndex = (m.inputs.length : Int) →
          (m.Update u (Msg.KeyMsg "enter")).1.focusIndex = m.focusIndex ∧
          (m.Update u (Msg.KeyMsg "enter")).2 = Cmd.submit) ∧
        (∀ s, (s = "up" ∨ s = "shift+tab") → m.focusIndex = 0 →
          (m.Update u (Msg.KeyMsg s)).1.focusIndex = (m.inputs.length : Int))) ∧
      ((∀ s, msg = Msg.KeyMsg s →
          s ≠ "tab" ∧ s ≠ "shift+tab" ∧ s ≠ "enter" ∧ s ≠ "up" ∧ s ≠ "down") →
        (m.Update u msg).1.focusIndex = m.focusIndex) := by
  refine ⟨run_invariant u msgs (InitialModel gc) rfl (le_refl 0)
    (by show (0 : Int) ≤ 5; omega), ?_⟩
  intro m msg
  refine ⟨Update_idle u m msg, ?_, Update_other u m msg⟩
  intro hdone hskip
  exact ⟨fun s hs hf => Update_next_wraps u m s hs hdone hskip hf,
    fun hf => Update_enter_submits u m hdone hskip hf,
    fun s hs hf => Update_previous_wraps u m s hs hdone hskip hf⟩

end tui
